import Mathlib

/-!
Verification of the domain-cache core of `ory-kratos-disposable`
(`internal/service/disposable.go`), a webhook that checks email addresses
against a periodically refreshed list of disposable-email domains.

The Go code is shallowly embedded:

* the `map[string]bool` domain set becomes a `List String` of keys
  (insertion keeps the key set; lookup is `List.contains`);
* the `map[string]string` ETag store becomes an association list
  `List (String × String)` with `getEtag` / `setEtag`;
* `time.Now()` becomes an explicit `now : Nat` argument;
* the network is an explicit input: each configured URL is paired with the
  `HttpResponse` the remote server would produce for it, so one `refresh`
  call takes the list of `(url, response)` pairs in configured order;
* the mutex only serializes access and refresh runs in a single goroutine
  per cycle, so a cycle is modelled as a pure state transformer.
-/

set_option autoImplicit false

namespace Disposable

/-- Go's `unicode.IsSpace` on the characters it recognizes as white space
(Latin-1 range). -/
def isGoSpace (c : Char) : Bool :=
  c = ' ' ∨ c = '\t' ∨ c = '\n' ∨ c = '\x0b' ∨ c = '\x0c' ∨ c = '\r' ∨
    c = '\x85' ∨ c = '\xa0'

/-- Go's `strings.TrimSpace` on a character list: drop white space from
both ends. -/
def trimChars (l : List Char) : List Char :=
  ((l.dropWhile isGoSpace).reverse.dropWhile isGoSpace).reverse

/-- Go's `strings.ToLower` restricted to its ASCII case mapping
(`'A'..'Z'` map to `'a'..'z'`); domains and emails here are ASCII. -/
def lowerChars (l : List Char) : List Char :=
  l.map Char.toLower

/-- Splitting a character list at every occurrence of `c`, with the
semantics of Go's `strings.Split` for a one-character separator:
the result always has `count c + 1` parts, and empty parts are kept. -/
def splitOnChar (c : Char) : List Char → List (List Char)
  | [] => [[]]
  | x :: xs =>
    let r := splitOnChar c xs
    if x = c then [] :: r
    else
      match r with
      | [] => [[x]]
      | y :: ys => (x :: y) :: ys

/-- The normalization step of `extractDomain`,
`strings.TrimSpace(strings.ToLower(email))`, as a character list. -/
def normChars (email : String) : List Char :=
  trimChars (lowerChars email.toList)

/-- Function `extractDomain` from `disposable.go`: lowercase, trim, split on `"@"`;
exactly two parts with a non-empty second part are required, otherwise the
empty string signals an invalid email. -/
def extractDomain (email : String) : String :=
  match splitOnChar '@' (normChars email) with
  | [_, d] => if d = [] then "" else String.mk d
  | _ => ""

/-- The lookup error surfaced by `IsDisposable` (`domain.ErrInvalidEmail`). -/
inductive LookupError where
  | invalidEmail
  deriving DecidableEq, Repr

/-- The error of `parseTxtFile`: on a string body the only failure is the
`"no domains found in the list"` guard. -/
inductive ParseError where
  | emptyResult
  deriving DecidableEq, Repr

/-- Per-source fetch failures of `fetchFromURL`: transport error,
non-200/non-304 status code, or a body that parses to nothing. -/
inductive FetchError where
  | network
  | badStatus (code : Nat)
  | parseFailed (e : ParseError)
  deriving DecidableEq, Repr

/-- The three outcomes of `fetchFromURL`. -/
inductive FetchOutcome where
  | notModified
  | ok (domains : List String) (etag : String)
  | err (e : FetchError)
  deriving DecidableEq, Repr

/-- What the remote server answers for one URL in one cycle: a transport
failure, or a status code with body and `ETag` header (`""` = no header). -/
inductive HttpResponse where
  | netError
  | status (code : Nat) (body : String) (etag : String)
  deriving DecidableEq, Repr

/-- The aggregate error of `refresh` when every URL failed, wrapping the
last per-source failure (`none` when no source produced an error value). -/
inductive RefreshError where
  | allFailed (lastErr : Option FetchError)
  deriving DecidableEq, Repr

/-- The mutable fields of `DisposableEmailService`. -/
structure ServiceState where
  domains : List String
  lastRefresh : Nat
  isReady : Bool
  etags : List (String × String)
  deriving DecidableEq, Repr

/-- The state built by `NewDisposableEmailService`: empty maps, zero time,
not ready. -/
def newService : ServiceState :=
  { domains := [], lastRefresh := 0, isReady := false, etags := [] }

/-- Go map read `etags[url]` (zero value `""` when absent). -/
def getEtag : List (String × String) → String → String
  | [], _ => ""
  | (u, t) :: rest, url => if u = url then t else getEtag rest url

/-- Go map write `etags[url] = t`. -/
def setEtag : List (String × String) → String → String → List (String × String)
  | [], url, t => [(url, t)]
  | (u, t') :: rest, url, t =>
      if u = url then (u, t) :: rest else (u, t') :: setEtag rest url t

/-- Strip one trailing `'\r'`, as `dropCR` inside `bufio.ScanLines` does. -/
def dropCR (line : List Char) : List Char :=
  if line.getLast? = some '\r' then line.dropLast else line

/-- Drop the final part of the `'\n'` decomposition when it is empty:
`bufio.Scanner` yields no token for the text after a trailing newline. -/
def dropFinalEmpty : List (List Char) → List (List Char)
  | [] => []
  | [x] => if x = [] then [] else [x]
  | x :: xs => x :: dropFinalEmpty xs

/-- The sequence of lines `bufio.Scanner` with `ScanLines` yields for a
string body: split on `'\n'`, drop the empty remainder after a trailing
newline, strip one trailing `'\r'` per line. -/
def scanLines (body : String) : List String :=
  ((dropFinalEmpty (splitOnChar '\n' body.toList)).map dropCR).map String.mk

/-- Go map key insert `domains[domain] = true`, on the key list. -/
def insertDomain (domains : List String) (d : String) : List String :=
  if domains.contains d then domains else domains ++ [d]

/-- The per-line step of `parseTxtFile`: trim, skip blank lines and `#`
comments, lowercase and insert the rest. -/
def parseLine (domains : List String) (raw : String) : List String :=
  let line := trimChars raw.toList
  if line = [] ∨ line.head? = some '#' then domains
  else insertDomain domains (String.mk (lowerChars line))

/-- Function `parseTxtFile` from `disposable.go`: fold `parseLine` over the scanned
lines; zero resulting domains is an error, never an empty success. -/
def parseTxtFile (body : String) : Except ParseError (List String) :=
  let domains := (scanLines body).foldl parseLine []
  if domains.isEmpty then .error .emptyResult else .ok domains

/-- Function `fetchFromURL` from `disposable.go`, given the server's response for
the URL. (The stored ETag is only sent as `If-None-Match` and influences
which `HttpResponse` the server produces; the response is an input here.)
304 is passed through as `notModified`, any other non-200 status and any
parse failure are errors, and on 200 the parsed set and the response
`ETag` are returned. -/
def fetchFromURL (resp : HttpResponse) : FetchOutcome :=
  match resp with
  | .netError => .err .network
  | .status code body etag =>
    if code = 304 then .notModified
    else if code ≠ 200 then .err (.badStatus code)
    else
      match parseTxtFile body with
      | .error e => .err (.parseFailed e)
      | .ok ds => .ok ds etag

/-- The `for i, url := range s.listURLs` loop of `refresh`, threading
`lastErr`. On fetch error: record it and continue. On 304: terminate
successfully touching only `lastRefresh` when ready, else continue. On
success: install the new set, set readiness, store a non-empty ETag, and
terminate. When the list is exhausted, `handleAllRefreshFailures` only
logs, the state is untouched, and the aggregate error is returned. -/
def refreshLoop (s : ServiceState) (now : Nat) (lastErr : Option FetchError) :
    List (String × HttpResponse) → ServiceState × Option RefreshError
  | [] => (s, some (.allFailed lastErr))
  | (url, resp) :: rest =>
    match fetchFromURL resp with
    | .err e => refreshLoop s now (some e) rest
    | .notModified =>
      if s.isReady then ({ s with lastRefresh := now }, none)
      else refreshLoop s now lastErr rest
    | .ok domains newETag =>
      ({ s with
          domains := domains
          lastRefresh := now
          isReady := true
          etags := if newETag = "" then s.etags else setEtag s.etags url newETag },
       none)

/-- Method `refresh` from `disposable.go`: one cycle over the configured URLs
(each paired with the response the network gives it in this cycle). -/
def refresh (s : ServiceState) (now : Nat)
    (fetches : List (String × HttpResponse)) : ServiceState × Option RefreshError :=
  refreshLoop s now none fetches

/-- Method `IsDisposable` from `disposable.go`: invalid email → error; not ready
→ fail open (`false`); otherwise membership of the extracted domain. -/
def IsDisposable (s : ServiceState) (email : String) :
    Bool × String × Option LookupError :=
  let emailDomain := extractDomain email
  if emailDomain = "" then (false, "", some .invalidEmail)
  else if !s.isReady then (false, emailDomain, none)
  else (s.domains.contains emailDomain, emailDomain, none)

/-- Method `IsReady` from `disposable.go`. -/
def IsReady (s : ServiceState) : Bool :=
  s.isReady

/-- The last error value accumulated by the `refresh` loop over a cycle,
starting from `init`. -/
def lastFetchErrFrom (init : Option FetchError) :
    List (String × HttpResponse) → Option FetchError
  | [] => init
  | p :: rest =>
    match fetchFromURL p.2 with
    | .err e => lastFetchErrFrom (some e) rest
    | _ => lastFetchErrFrom init rest

/-- The last per-source failure of a cycle, if any. -/
def lastFetchErr (fetches : List (String × HttpResponse)) : Option FetchError :=
  lastFetchErrFrom none fetches

/-- The invalid-input class in the words of the spec (§4.4): after
lowercasing and trimming, the string has zero or at least two `'@'`
characters, or exactly one `'@'` with nothing after it. -/
def specInvalidEmail (email : String) : Prop :=
  let t := normChars email
  t.count '@' = 0 ∨ 2 ≤ t.count '@' ∨ (t.count '@' = 1 ∧ t.getLast? = some '@')

instance (email : String) : Decidable (specInvalidEmail email) := by
  unfold specInvalidEmail
  exact inferInstance

theorem splitOnChar_ne_nil (c : Char) (l : List Char) : splitOnChar c l ≠ [] := by
  induction l with
  | nil => simp [splitOnChar]
  | cons x xs ih =>
    simp only [splitOnChar]
    split
    · simp
    · cases h : splitOnChar c xs with
      | nil => simp
      | cons y ys => simp

theorem splitOnChar_length (c : Char) (l : List Char) :
    (splitOnChar c l).length = l.count c + 1 := by
  induction l with
  | nil => simp [splitOnChar]
  | cons x xs ih =>
    simp only [splitOnChar]
    split
    · rename_i hx
      simp [List.count_cons, hx, ih]
    · rename_i hx
      cases h : splitOnChar c xs with
      | nil => exact absurd h (splitOnChar_ne_nil c xs)
      | cons y ys =>
        rw [h] at ih
        simp only [List.length_cons] at ih ⊢
        simp [List.count_cons, hx, ih]

theorem splitOnChar_singleton (c : Char) (l : List Char) (b : List Char)
    (h : splitOnChar c l = [b]) : l = b ∧ c ∉ b := by
  induction l generalizing b with
  | nil =>
    simp only [splitOnChar] at h
    cases h
    simp
  | cons x xs ih =>
    simp only [splitOnChar] at h
    split at h
    · rename_i hx
      have h2 : splitOnChar c xs = [] := by injection h
      exact absurd h2 (splitOnChar_ne_nil c xs)
    · rename_i hx
      cases hr : splitOnChar c xs with
      | nil => exact absurd hr (splitOnChar_ne_nil c xs)
      | cons y ys =>
        rw [hr] at h
        cases ys with
        | nil =>
          cases h
          obtain ⟨hxs, hb⟩ := ih y hr
          subst hxs
          refine ⟨rfl, ?_⟩
          simp only [List.mem_cons, not_or]
          exact ⟨fun hcx => hx hcx.symm, hb⟩
        | cons z zs => simp at h

theorem splitOnChar_pair (c : Char) (l : List Char) (a b : List Char)
    (h : splitOnChar c l = [a, b]) : l = a ++ c :: b ∧ c ∉ a ∧ c ∉ b := by
  induction l generalizing a with
  | nil => simp [splitOnChar] at h
  | cons x xs ih =>
    simp only [splitOnChar] at h
    split at h
    · rename_i hx
      subst hx
      have h1 : ([] : List Char) = a := by injection h
      have h2 : splitOnChar x xs = [b] := by injection h
      obtain ⟨hxs, hb⟩ := splitOnChar_singleton x xs b h2
      subst hxs
      exact ⟨by simp [← h1], by simp [← h1], hb⟩
    · rename_i hx
      cases hr : splitOnChar c xs with
      | nil => exact absurd hr (splitOnChar_ne_nil c xs)
      | cons y ys =>
        rw [hr] at h
        have h1 : x :: y = a := by injection h
        have h2 : ys = [b] := by injection h
        subst h2
        obtain ⟨hxs, hya, hb⟩ := ih y (by rw [hr])
        subst hxs
        refine ⟨by simp [← h1], ?_, hb⟩
        rw [← h1]
        simp only [List.mem_cons, not_or]
        exact ⟨fun hcx => hx hcx.symm, hya⟩

theorem count_eq_zero_of_splitOnChar_singleton (c : Char) (l : List Char)
    (b : List Char) (h : splitOnChar c l = [b]) : l.count c = 0 := by
  have := splitOnChar_length c l
  rw [h] at this
  simpa using this.symm

/-- The code's invalid-email test (`extractDomain` returning `""`)
coincides with the spec's description of the invalid-input class. -/
theorem extractDomain_eq_empty_iff (email : String) :
    extractDomain email = "" ↔ specInvalidEmail email := by
  unfold extractDomain specInvalidEmail
  cases hr : splitOnChar '@' (normChars email) with
  | nil => exact absurd hr (splitOnChar_ne_nil _ _)
  | cons a tl =>
    cases tl with
    | nil =>
      -- zero occurrences of the separator
      have hc : (normChars email).count '@' = 0 :=
        count_eq_zero_of_splitOnChar_singleton _ _ _ hr
      simp [hc]
    | cons b tl2 =>
      cases tl2 with
      | nil =>
        -- exactly one occurrence
        obtain ⟨hl, hca, hcb⟩ := splitOnChar_pair '@' (normChars email) a b hr
        have hc : (normChars email).count '@' = 1 := by
          have := splitOnChar_length '@' (normChars email)
          rw [hr] at this
          simpa using this.symm
        by_cases hb : b = []
        · subst hb
          have hlast : (normChars email).getLast? = some '@' := by
            rw [hl]
            exact List.getLast?_concat a
          simp [hc, hlast]
        · have hmk : String.mk b ≠ "" := by
            intro hmk
            exact hb (congrArg String.data hmk)
          have hlast : (normChars email).getLast? ≠ some '@' := by
            have hl2 : normChars email = (a ++ ['@']) ++ b := by
              rw [hl]; simp
            rw [hl2, List.getLast?_append_of_ne_nil _ hb,
              List.getLast?_eq_getLast_of_ne_nil hb]
            intro hlb
            have hlb2 : b.getLast hb = '@' := by injection hlb
            exact hcb (hlb2 ▸ List.getLast_mem hb)
          simp [hb, hc, hmk, hlast]
      | cons d tl3 =>
        -- at least two occurrences
        have hc : 2 ≤ (normChars email).count '@' := by
          have := splitOnChar_length '@' (normChars email)
          rw [hr] at this
          simp only [List.length_cons] at this
          omega
        have hc0 : (normChars email).count '@' ≠ 0 := by omega
        simp [hc, hc0]

/-- On a valid email, `IsDisposable` returns the membership verdict for
the extracted domain, the domain itself, and no error. -/
theorem isDisposable_of_valid (s : ServiceState) (email : String)
    (h : extractDomain email ≠ "") :
    IsDisposable s email =
      (s.isReady && s.domains.contains (extractDomain email),
        extractDomain email, none) := by
  unfold IsDisposable
  rw [if_neg h]
  cases hr : s.isReady <;> simp

theorem contains_iff_mem (l : List String) (x : String) :
    l.contains x = true ↔ x ∈ l := by
  simp [List.contains]

theorem mem_insertDomain (domains : List String) (d x : String) :
    x ∈ insertDomain domains d ↔ x ∈ domains ∨ x = d := by
  unfold insertDomain
  split
  · rename_i hc
    have hd : d ∈ domains := (contains_iff_mem domains d).mp hc
    constructor
    · exact fun hx => Or.inl hx
    · rintro (hx | rfl)
      · exact hx
      · exact hd
  · simp

/-- The parse condition under which a raw line contributes a domain. -/
theorem mem_foldl_parseLine (lines : List String) (acc : List String) (x : String) :
    x ∈ lines.foldl parseLine acc ↔
      x ∈ acc ∨ ∃ raw ∈ lines, trimChars raw.toList ≠ [] ∧
        (trimChars raw.toList).head? ≠ some '#' ∧
        x = String.mk (lowerChars (trimChars raw.toList)) := by
  induction lines generalizing acc with
  | nil => simp
  | cons raw rest ih =>
    rw [List.foldl_cons, ih]
    show x ∈ parseLine acc raw ∨ _ ↔ _
    have hpl : parseLine acc raw =
        if trimChars raw.toList = [] ∨ (trimChars raw.toList).head? = some '#'
        then acc else insertDomain acc (String.mk (lowerChars (trimChars raw.toList))) := rfl
    rw [hpl]
    split
    · rename_i hskip
      simp only [List.mem_cons]
      constructor
      · rintro (hx | ⟨r, hr, hcond⟩)
        · exact Or.inl hx
        · exact Or.inr ⟨r, Or.inr hr, hcond⟩
      · rintro (hx | ⟨r, hr | hr, hcond⟩)
        · exact Or.inl hx
        · subst hr
          rcases hskip with hskip | hskip
          · exact absurd hskip hcond.1
          · exact absurd hskip hcond.2.1
        · exact Or.inr ⟨r, hr, hcond⟩
    · rename_i hkeep
      push_neg at hkeep
      rw [mem_insertDomain]
      simp only [List.mem_cons]
      constructor
      · rintro ((hx | hx) | ⟨r, hr, hcond⟩)
        · exact Or.inl hx
        · exact Or.inr ⟨raw, Or.inl rfl, hkeep.1, hkeep.2, hx⟩
        · exact Or.inr ⟨r, Or.inr hr, hcond⟩
      · rintro (hx | ⟨r, hr | hr, hcond⟩)
        · exact Or.inl (Or.inl hx)
        · subst hr
          exact Or.inl (Or.inr hcond.2.2)
        · exact Or.inr ⟨r, hr, hcond⟩

theorem parseTxtFile_eq (body : String) :
    parseTxtFile body =
      if ((scanLines body).foldl parseLine []).isEmpty then .error .emptyResult
      else .ok ((scanLines body).foldl parseLine []) := rfl

theorem parseTxtFile_ok_ne_nil (body : String) (ds : List String)
    (h : parseTxtFile body = .ok ds) : ds ≠ [] := by
  rw [parseTxtFile_eq] at h
  split at h
  · cases h
  · rename_i hne
    cases h
    simpa using hne

theorem fetchFromURL_status_eq (code : Nat) (body etag : String) :
    fetchFromURL (.status code body etag) =
      if code = 304 then .notModified
      else if code ≠ 200 then .err (.badStatus code)
      else
        match parseTxtFile body with
        | .error e => .err (.parseFailed e)
        | .ok ds => .ok ds etag := rfl

/-- A fetch never succeeds with an empty domain set. -/
theorem fetchFromURL_ok_ne_nil (resp : HttpResponse) (ds : List String) (tg : String)
    (h : fetchFromURL resp = .ok ds tg) : ds ≠ [] := by
  cases resp with
  | netError => cases h
  | status code body etag =>
    rw [fetchFromURL_status_eq] at h
    by_cases h304 : code = 304
    · rw [if_pos h304] at h
      cases h
    · rw [if_neg h304] at h
      by_cases h200 : code ≠ 200
      · rw [if_pos h200] at h
        cases h
      · rw [if_neg h200] at h
        cases hp : parseTxtFile body with
        | error e =>
          rw [hp] at h
          cases h
        | ok ds2 =>
          rw [hp] at h
          cases h
          exact parseTxtFile_ok_ne_nil body _ hp

/-- The three possible final states of one refresh cycle: untouched,
timestamp-only update, or a wholesale install from some successful
source. -/
theorem refreshLoop_state_cases (s : ServiceState) (now : Nat)
    (le : Option FetchError) (fetches : List (String × HttpResponse)) :
    (refreshLoop s now le fetches).1 = s ∨
    (refreshLoop s now le fetches).1 = { s with lastRefresh := now } ∨
    ∃ p ∈ fetches, ∃ ds tg, fetchFromURL p.2 = .ok ds tg ∧
      (refreshLoop s now le fetches).1 =
        { s with
            domains := ds,
            lastRefresh := now,
            isReady := true,
            etags := if tg = "" then s.etags else setEtag s.etags p.1 tg } := by
  induction fetches generalizing le with
  | nil => exact Or.inl rfl
  | cons p rest ih =>
    obtain ⟨url, resp⟩ := p
    cases hf : fetchFromURL resp with
    | err e =>
      simp only [refreshLoop, hf]
      rcases ih (some e) with h | h | ⟨q, hq, ds, tg, hqf, h⟩
      · exact Or.inl h
      · exact Or.inr (Or.inl h)
      · exact Or.inr (Or.inr ⟨q, List.mem_cons_of_mem _ hq, ds, tg, hqf, h⟩)
    | notModified =>
      simp only [refreshLoop, hf]
      by_cases hready : s.isReady = true
      · rw [if_pos hready]
        exact Or.inr (Or.inl rfl)
      · rw [if_neg hready]
        rcases ih le with h | h | ⟨q, hq, ds, tg, hqf, h⟩
        · exact Or.inl h
        · exact Or.inr (Or.inl h)
        · exact Or.inr (Or.inr ⟨q, List.mem_cons_of_mem _ hq, ds, tg, hqf, h⟩)
    | ok ds tg =>
      simp only [refreshLoop, hf]
      exact Or.inr (Or.inr ⟨(url, resp), List.mem_cons_self _ _, ds, tg, hf, rfl⟩)

/-- When every source of the cycle fails outright or answers 304 while the
cache has no data, the cycle leaves the state untouched and reports the
aggregate error around the last failure. -/
theorem refreshLoop_no_success (s : ServiceState) (now : Nat)
    (le : Option FetchError) (fetches : List (String × HttpResponse))
    (h : ∀ p ∈ fetches, (∃ e, fetchFromURL p.2 = .err e) ∨
      (fetchFromURL p.2 = .notModified ∧ s.isReady = false)) :
    refreshLoop s now le fetches =
      (s, some (.allFailed (lastFetchErrFrom le fetches))) := by
  induction fetches generalizing le with
  | nil => rfl
  | cons p rest ih =>
    obtain ⟨url, resp⟩ := p
    have hrest : ∀ q ∈ rest, (∃ e, fetchFromURL q.2 = .err e) ∨
        (fetchFromURL q.2 = .notModified ∧ s.isReady = false) :=
      fun q hq => h q (List.mem_cons_of_mem _ hq)
    rcases h _ (List.mem_cons_self _ _) with ⟨e, he⟩ | ⟨hnm, hnr⟩
    · simp only [refreshLoop, lastFetchErrFrom, he]
      exact ih (some e) hrest
    · simp only [refreshLoop, lastFetchErrFrom, hnm, hnr, Bool.false_eq_true, if_false]
      exact ih le hrest

/-- The first terminating success of a cycle installs its parsed set and
ends the cycle; later sources play no role. -/
theorem refreshLoop_first_success (s : ServiceState) (now : Nat)
    (le : Option FetchError) (pre : List (String × HttpResponse))
    (u : String) (r : HttpResponse) (post : List (String × HttpResponse))
    (ds : List String) (tg : String)
    (hpre : ∀ p ∈ pre, (∃ e, fetchFromURL p.2 = .err e) ∨
      (fetchFromURL p.2 = .notModified ∧ s.isReady = false))
    (hr : fetchFromURL r = .ok ds tg) :
    refreshLoop s now le (pre ++ (u, r) :: post) =
      ({ s with
          domains := ds,
          lastRefresh := now,
          isReady := true,
          etags := if tg = "" then s.etags else setEtag s.etags u tg }, none) := by
  induction pre generalizing le with
  | nil => simp only [List.nil_append, refreshLoop, hr]
  | cons p rest ih =>
    obtain ⟨url, resp⟩ := p
    have hrest : ∀ q ∈ rest, (∃ e, fetchFromURL q.2 = .err e) ∨
        (fetchFromURL q.2 = .notModified ∧ s.isReady = false) :=
      fun q hq => hpre q (List.mem_cons_of_mem _ hq)
    rcases hpre _ (List.mem_cons_self _ _) with ⟨e, he⟩ | ⟨hnm, hnr⟩
    · simp only [List.cons_append, refreshLoop, he]
      exact ih (some e) hrest
    · simp only [List.cons_append, refreshLoop, hnm, hnr, Bool.false_eq_true, if_false]
      exact ih le hrest

/-- A 304 while the cache is ready terminates the cycle touching only the
timestamp, no matter how many earlier sources failed and what comes
after. -/
theorem refreshLoop_notModified_ready (s : ServiceState) (now : Nat)
    (le : Option FetchError) (pre : List (String × HttpResponse))
    (u : String) (r : HttpResponse) (post : List (String × HttpResponse))
    (hready : s.isReady = true)
    (hpre : ∀ p ∈ pre, ∃ e, fetchFromURL p.2 = .err e)
    (hr : fetchFromURL r = .notModified) :
    refreshLoop s now le (pre ++ (u, r) :: post) =
      ({ s with lastRefresh := now }, none) := by
  induction pre generalizing le with
  | nil => simp only [List.nil_append, refreshLoop, hr, hready, if_true]
  | cons p rest ih =>
    obtain ⟨url, resp⟩ := p
    obtain ⟨e, he⟩ := hpre _ (List.mem_cons_self _ _)
    simp only [List.cons_append, refreshLoop, he]
    exact ih (some e) (fun q hq => hpre q (List.mem_cons_of_mem _ hq))

/-- Writing one key of the ETag map leaves every other key unchanged. -/
theorem getEtag_setEtag_ne (etags : List (String × String)) (u t u' : String)
    (h : u' ≠ u) : getEtag (setEtag etags u t) u' = getEtag etags u' := by
  induction etags with
  | nil =>
    simp only [setEtag, getEtag]
    rw [if_neg (fun hh => h hh.symm)]
  | cons p rest ih =>
    obtain ⟨a, b⟩ := p
    simp only [setEtag]
    split
    · rename_i ha
      subst ha
      simp only [getEtag]
      rw [if_neg (fun hh => h hh.symm), if_neg (fun hh => h hh.symm)]
    · simp only [getEtag]
      split
      · rfl
      · exact ih

theorem isDisposable_eq (s : ServiceState) (email : String) :
    IsDisposable s email =
      if extractDomain email = "" then (false, "", some .invalidEmail)
      else if !s.isReady then (false, extractDomain email, none)
      else (s.domains.contains (extractDomain email), extractDomain email, none) := rfl

/-- C1: for every valid email (exactly one `@`, non-empty domain part)
with extracted domain D: ready and D present gives `(true, D, nil)`;
ready and D absent gives `(false, D, nil)`; never ready gives
`(false, D, nil)` regardless of D (fail-open). -/
theorem C1_isDisposable_verdict (s : ServiceState) (email : String)
    (h1 : (normChars email).count '@' = 1)
    (h2 : (normChars email).getLast? ≠ some '@') :
    (s.isReady = true → extractDomain email ∈ s.domains →
      IsDisposable s email = (true, extractDomain email, none)) ∧
    (s.isReady = true → extractDomain email ∉ s.domains →
      IsDisposable s email = (false, extractDomain email, none)) ∧
    (s.isReady = false →
      IsDisposable s email = (false, extractDomain email, none)) := by
  have hne : extractDomain email ≠ "" := by
    rw [Ne, extractDomain_eq_empty_iff]
    unfold specInvalidEmail
    simp [h1, h2]
  have hd := isDisposable_of_valid s email hne
  refine ⟨?_, ?_, ?_⟩
  · intro hr hm
    rw [hd, hr]
    rw [(contains_iff_mem _ _).mpr hm]
    simp
  · intro hr hm
    have hc : s.domains.contains (extractDomain email) = false :=
      Bool.eq_false_iff.mpr (fun hc => hm ((contains_iff_mem _ _).mp hc))
    rw [hd, hr, hc]
    simp
  · intro hr
    rw [hd, hr]
    simp

theorem C1_isDisposable_verdict_witness :
    (normChars "u@evil.com").count '@' = 1 ∧
    (normChars "u@evil.com").getLast? ≠ some '@' ∧
    IsDisposable ⟨["evil.com"], 0, true, []⟩ "u@evil.com" =
      (true, "evil.com", none) := by
  refine ⟨by decide, by decide, ?_⟩
  have h := (C1_isDisposable_verdict ⟨["evil.com"], 0, true, []⟩ "u@evil.com"
    (by decide) (by decide)).1 rfl (by decide)
  rw [h]
  decide

/-- C3: exactly the inputs that, after trimming and lowercasing, have no
`@`, several `@`, or an empty part after the `@` make `IsDisposable`
return the invalid-email error; every other input gets no error. -/
theorem C3_invalid_email_error (s : ServiceState) (email : String) :
    (specInvalidEmail email →
      IsDisposable s email = (false, "", some .invalidEmail)) ∧
    (¬ specInvalidEmail email → (IsDisposable s email).2.2 = none) := by
  constructor
  · intro h
    have he : extractDomain email = "" := (extractDomain_eq_empty_iff email).mpr h
    rw [isDisposable_eq, if_pos he]
  · intro h
    have hne : extractDomain email ≠ "" :=
      fun he => h ((extractDomain_eq_empty_iff email).mp he)
    rw [isDisposable_of_valid s email hne]

theorem C3_invalid_email_error_witness :
    specInvalidEmail "plainaddress" ∧ specInvalidEmail "a@b@c" ∧
    specInvalidEmail "u@" ∧
    IsDisposable newService "a@b@c" = (false, "", some .invalidEmail) ∧
    ¬ specInvalidEmail "u@ok.com" ∧
    (IsDisposable newService "u@ok.com").2.2 = none :=
  ⟨by decide, by decide, by decide,
    (C3_invalid_email_error newService "a@b@c").1 (by decide),
    by decide,
    (C3_invalid_email_error newService "u@ok.com").2 (by decide)⟩

/-- C10: a string that splits on `@` into exactly two parts with a
non-empty second part is accepted — nil error and the verdict for that
domain — even when the local part before the `@` is empty. -/
theorem C10_empty_local_part_accepted (s : ServiceState) (email : String)
    (l d : List Char) (h : splitOnChar '@' (normChars email) = [l, d])
    (hd : d ≠ []) :
    IsDisposable s email =
      (s.isReady && s.domains.contains (String.mk d), String.mk d, none) := by
  have hext : extractDomain email = String.mk d := by
    simp only [extractDomain, h]
    rw [if_neg hd]
  have hne : extractDomain email ≠ "" := by
    rw [hext]
    intro hh
    exact hd (congrArg String.data hh)
  rw [isDisposable_of_valid s email hne, hext]

theorem C10_empty_local_part_accepted_witness :
    splitOnChar '@' (normChars "@evil.com") =
      [[], ['e', 'v', 'i', 'l', '.', 'c', 'o', 'm']] ∧
    IsDisposable ⟨["evil.com"], 0, true, []⟩ "@evil.com" =
      (true, "evil.com", none) := by
  refine ⟨by decide, ?_⟩
  have h := C10_empty_local_part_accepted ⟨["evil.com"], 0, true, []⟩ "@evil.com"
    [] ['e', 'v', 'i', 'l', '.', 'c', 'o', 'm'] (by decide) (by decide)
  rw [h]
  decide

theorem refresh_eq (s : ServiceState) (now : Nat)
    (fetches : List (String × HttpResponse)) :
    refresh s now fetches = refreshLoop s now none fetches := rfl

/-- C2: once ready, a refresh cycle keeps readiness true, only ever
replaces the domain set with a freshly fetched one, and leaves the whole
state untouched when every source fails. -/
theorem C2_readiness_monotonic_retains (s : ServiceState) (now : Nat)
    (fetches : List (String × HttpResponse)) (h : s.isReady = true) :
    (refresh s now fetches).1.isReady = true ∧
    ((refresh s now fetches).1.domains = s.domains ∨
      ∃ p ∈ fetches, ∃ ds tg, fetchFromURL p.2 = .ok ds tg ∧
        (refresh s now fetches).1.domains = ds) ∧
    ((∀ p ∈ fetches, ∃ e, fetchFromURL p.2 = .err e) →
      (refresh s now fetches).1 = s) := by
  refine ⟨?_, ?_, ?_⟩
  · rcases refreshLoop_state_cases s now none fetches with hc | hc | ⟨p, hp, ds, tg, hf, hc⟩
    · rw [refresh_eq, hc]
      exact h
    · rw [refresh_eq, hc]
      exact h
    · rw [refresh_eq, hc]
  · rcases refreshLoop_state_cases s now none fetches with hc | hc | ⟨p, hp, ds, tg, hf, hc⟩
    · left
      rw [refresh_eq, hc]
    · left
      rw [refresh_eq, hc]
    · right
      exact ⟨p, hp, ds, tg, hf, by rw [refresh_eq, hc]⟩
  · intro h3
    rw [refresh_eq, refreshLoop_no_success s now none fetches
      (fun p hp => Or.inl (h3 p hp))]

theorem C2_readiness_monotonic_retains_witness :
    (⟨["evil.com"], 3, true, [("a", "t")]⟩ : ServiceState).isReady = true ∧
    (refresh ⟨["evil.com"], 3, true, [("a", "t")]⟩ 7
        [("a", .netError), ("b", .status 500 "" "")]).1 =
      ⟨["evil.com"], 3, true, [("a", "t")]⟩ ∧
    IsDisposable (refresh ⟨["evil.com"], 3, true, [("a", "t")]⟩ 7
        [("a", .netError), ("b", .status 500 "" "")]).1 "u@evil.com" =
      (true, "evil.com", none) := by
  have hall : ∀ p ∈ ([("a", HttpResponse.netError),
      ("b", HttpResponse.status 500 "" "")] : List (String × HttpResponse)),
      ∃ e, fetchFromURL p.2 = .err e := by
    intro p hp
    simp only [List.mem_cons, List.not_mem_nil, or_false] at hp
    rcases hp with rfl | rfl
    · exact ⟨.network, rfl⟩
    · exact ⟨.badStatus 500, rfl⟩
  have h := C2_readiness_monotonic_retains ⟨["evil.com"], 3, true, [("a", "t")]⟩ 7
    [("a", .netError), ("b", .status 500 "" "")] rfl
  have hs := h.2.2 hall
  exact ⟨rfl, hs, by rw [hs]; decide⟩

/-- C4: sources are tried strictly in order; the first success (after a
prefix that fails or answers 304 while not ready) installs exactly its
parsed content, skips every later source, and leaves the stored ETag of
every other URL untouched; a 304 in that position while the cache is
ready equally terminates the scan. -/
theorem C4_first_success_wins (s : ServiceState) (now : Nat)
    (pre : List (String × HttpResponse)) (u : String) (r : HttpResponse)
    (post : List (String × HttpResponse)) (ds : List String) (tg : String)
    (hpre : ∀ p ∈ pre, (∃ e, fetchFromURL p.2 = .err e) ∨
      (fetchFromURL p.2 = .notModified ∧ s.isReady = false))
    (hr : fetchFromURL r = .ok ds tg) :
    refresh s now (pre ++ (u, r) :: post) =
      ({ s with
          domains := ds,
          lastRefresh := now,
          isReady := true,
          etags := if tg = "" then s.etags else setEtag s.etags u tg }, none) ∧
    (∀ u', u' ≠ u →
      getEtag (refresh s now (pre ++ (u, r) :: post)).1.etags u' =
        getEtag s.etags u') ∧
    (∀ r', s.isReady = true → fetchFromURL r' = .notModified →
      (∀ p ∈ pre, ∃ e, fetchFromURL p.2 = .err e) →
      refresh s now (pre ++ (u, r') :: post) =
        ({ s with lastRefresh := now }, none)) := by
  have hmain := refreshLoop_first_success s now none pre u r post ds tg hpre hr
  refine ⟨hmain, ?_, ?_⟩
  · intro u' hu
    rw [refresh_eq, hmain]
    show getEtag (if tg = "" then s.etags else setEtag s.etags u tg) u' = _
    split
    · rfl
    · exact getEtag_setEtag_ne s.etags u tg u' hu
  · intro r' hready hnm hpre2
    exact refreshLoop_notModified_ready s now none pre u r' post hready hpre2 hnm

theorem C4_first_success_wins_witness :
    fetchFromURL (.status 200 "evil.com\n" "tagB") = .ok ["evil.com"] "tagB" ∧
    refresh newService 5
        ([("A", HttpResponse.netError)] ++
          ("B", HttpResponse.status 200 "evil.com\n" "tagB") :: []) =
      (⟨["evil.com"], 5, true, [("B", "tagB")]⟩, none) ∧
    getEtag (refresh newService 5
        ([("A", HttpResponse.netError)] ++
          ("B", HttpResponse.status 200 "evil.com\n" "tagB") :: [])).1.etags "A" =
      getEtag newService.etags "A" := by
  have hpre : ∀ p ∈ ([("A", HttpResponse.netError)] : List (String × HttpResponse)),
      (∃ e, fetchFromURL p.2 = .err e) ∨
      (fetchFromURL p.2 = .notModified ∧ newService.isReady = false) := by
    intro p hp
    simp only [List.mem_cons, List.not_mem_nil, or_false] at hp
    rcases hp with rfl
    exact Or.inl ⟨.network, rfl⟩
  have h := C4_first_success_wins newService 5 [("A", .netError)] "B"
    (.status 200 "evil.com\n" "tagB") [] ["evil.com"] "tagB" hpre rfl
  exact ⟨rfl, h.1, h.2.1 "A" (by decide)⟩

/-- C7: a 304 from a source while the cache is ready ends the cycle
successfully at that source; only the last-refresh timestamp changes, the
domain set, readiness flag and every stored ETag stay as they were. -/
theorem C7_not_modified_frame (s : ServiceState) (now : Nat)
    (pre : List (String × HttpResponse)) (u : String) (r : HttpResponse)
    (post : List (String × HttpResponse)) (hready : s.isReady = true)
    (hpre : ∀ p ∈ pre, ∃ e, fetchFromURL p.2 = .err e)
    (hr : fetchFromURL r = .notModified) :
    refresh s now (pre ++ (u, r) :: post) =
      ({ s with lastRefresh := now }, none) ∧
    (refresh s now (pre ++ (u, r) :: post)).1.domains = s.domains ∧
    (refresh s now (pre ++ (u, r) :: post)).1.isReady = s.isReady ∧
    (refresh s now (pre ++ (u, r) :: post)).1.etags = s.etags ∧
    (refresh s now (pre ++ (u, r) :: post)).1.lastRefresh = now ∧
    (refresh s now (pre ++ (u, r) :: post)).2 = none := by
  have h := refreshLoop_notModified_ready s now none pre u r post hready hpre hr
  refine ⟨h, ?_, ?_, ?_, ?_, ?_⟩ <;> rw [refresh_eq, h]

theorem C7_not_modified_frame_witness :
    (⟨["evil.com"], 1, true, [("B", "t")]⟩ : ServiceState).isReady = true ∧
    fetchFromURL (.status 304 "" "") = .notModified ∧
    refresh ⟨["evil.com"], 1, true, [("B", "t")]⟩ 9
        ([("A", HttpResponse.netError)] ++
          ("B", HttpResponse.status 304 "" "") ::
            [("C", HttpResponse.status 200 "x.org\n" "")]) =
      (⟨["evil.com"], 9, true, [("B", "t")]⟩, none) := by
  have hpre : ∀ p ∈ ([("A", HttpResponse.netError)] : List (String × HttpResponse)),
      ∃ e, fetchFromURL p.2 = .err e := by
    intro p hp
    simp only [List.mem_cons, List.not_mem_nil, or_false] at hp
    rcases hp with rfl
    exact ⟨.network, rfl⟩
  have h := C7_not_modified_frame ⟨["evil.com"], 1, true, [("B", "t")]⟩ 9
    [("A", .netError)] "B" (.status 304 "" "")
    [("C", .status 200 "x.org\n" "")] rfl hpre rfl
  exact ⟨rfl, rfl, h.1⟩

/-- C8: a cycle in which every source fails, or answers 304 while the
cache was never ready, leaves the state untouched and returns the
aggregate error wrapping the last per-source failure. -/
theorem C8_all_failed_aggregate (s : ServiceState) (now : Nat)
    (fetches : List (String × HttpResponse))
    (h : ∀ p ∈ fetches, (∃ e, fetchFromURL p.2 = .err e) ∨
      (fetchFromURL p.2 = .notModified ∧ s.isReady = false)) :
    refresh s now fetches = (s, some (.allFailed (lastFetchErr fetches))) :=
  refreshLoop_no_success s now none fetches h

theorem C8_all_failed_aggregate_witness :
    lastFetchErr [("a", .status 500 "" ""), ("b", .netError)] = some .network ∧
    refresh newService 2 [("a", .status 500 "" ""), ("b", .netError)] =
      (newService, some (.allFailed (some .network))) := by
  have hall : ∀ p ∈ ([("a", HttpResponse.status 500 "" ""),
      ("b", HttpResponse.netError)] : List (String × HttpResponse)),
      (∃ e, fetchFromURL p.2 = .err e) ∨
      (fetchFromURL p.2 = .notModified ∧ newService.isReady = false) := by
    intro p hp
    simp only [List.mem_cons, List.not_mem_nil, or_false] at hp
    rcases hp with rfl | rfl
    · exact Or.inl ⟨.badStatus 500, rfl⟩
    · exact Or.inl ⟨.network, rfl⟩
  have h := C8_all_failed_aggregate newService 2
    [("a", .status 500 "" ""), ("b", .netError)] hall
  exact ⟨rfl, h⟩

/-- C9 (implicit invariant): if readiness implies a non-empty domain set
before a refresh cycle, the same holds after it — successful installs are
guarded against empty parses — and the invariant holds at construction. -/
theorem C9_ready_implies_nonempty (s : ServiceState) (now : Nat)
    (fetches : List (String × HttpResponse))
    (h : s.isReady = true → s.domains ≠ []) :
    ((refresh s now fetches).1.isReady = true →
      (refresh s now fetches).1.domains ≠ []) ∧
    (newService.isReady = true → newService.domains ≠ []) := by
  refine ⟨?_, by decide⟩
  intro hready
  rcases refreshLoop_state_cases s now none fetches with hc | hc | ⟨p, hp, ds, tg, hf, hc⟩
  · rw [refresh_eq, hc] at hready ⊢
    exact h hready
  · rw [refresh_eq, hc] at hready ⊢
    exact h hready
  · rw [refresh_eq, hc]
    exact fetchFromURL_ok_ne_nil p.2 ds tg hf

theorem C9_ready_implies_nonempty_witness :
    (newService.isReady = true → newService.domains ≠ []) ∧
    ((refresh newService 0 [("a", .status 200 "evil.com\n" "")]).1.isReady = true →
      (refresh newService 0 [("a", .status 200 "evil.com\n" "")]).1.domains ≠ []) ∧
    (refresh newService 0 [("a", .status 200 "evil.com\n" "")]).1.isReady = true ∧
    (refresh newService 0 [("a", .status 200 "evil.com\n" "")]).1.domains =
      ["evil.com"] := by
  refine ⟨by decide, ?_, rfl, rfl⟩
  exact (C9_ready_implies_nonempty newService 0
    [("a", .status 200 "evil.com\n" "")] (by decide)).1

/-- C5: a domain is in a successfully parsed body exactly when some
scanned line of the body trims to a non-blank, non-comment string whose
lowercasing is that domain. -/
theorem C5_parse_line_policy (body : String) (ds : List String)
    (h : parseTxtFile body = .ok ds) (x : String) :
    x ∈ ds ↔ ∃ raw ∈ scanLines body, trimChars raw.toList ≠ [] ∧
      (trimChars raw.toList).head? ≠ some '#' ∧
      x = String.mk (lowerChars (trimChars raw.toList)) := by
  rw [parseTxtFile_eq] at h
  split at h
  · cases h
  · cases h
    rw [mem_foldl_parseLine]
    simp

theorem C5_parse_line_policy_witness :
    parseTxtFile "# comment\n\nEVIL.COM\n  other.org  \n" =
      .ok ["evil.com", "other.org"] ∧
    ("evil.com" ∈ ["evil.com", "other.org"] ↔
      ∃ raw ∈ scanLines "# comment\n\nEVIL.COM\n  other.org  \n",
        trimChars raw.toList ≠ [] ∧
        (trimChars raw.toList).head? ≠ some '#' ∧
        "evil.com" = String.mk (lowerChars (trimChars raw.toList))) :=
  ⟨rfl, C5_parse_line_policy "# comment\n\nEVIL.COM\n  other.org  \n"
    ["evil.com", "other.org"] rfl "evil.com"⟩

/-- C6: a 200 body whose every line is blank or a comment is a fetch
failure carrying the empty-result parse error, and no fetch ever succeeds
with an empty domain set. -/
theorem C6_empty_parse_is_failure (body : String) (etag : String)
    (h : ∀ raw ∈ scanLines body, trimChars raw.toList = [] ∨
      (trimChars raw.toList).head? = some '#') :
    fetchFromURL (.status 200 body etag) = .err (.parseFailed .emptyResult) ∧
    ∀ resp ds tg, fetchFromURL resp = .ok ds tg → ds ≠ [] := by
  constructor
  · have hnil : (scanLines body).foldl parseLine [] = [] := by
      rw [List.eq_nil_iff_forall_not_mem]
      intro x hx
      rw [mem_foldl_parseLine] at hx
      rcases hx with hx | ⟨raw, hraw, h1, h2, _⟩
      · simp at hx
      · rcases h raw hraw with hh | hh
        · exact h1 hh
        · exact h2 hh
    have hempty : parseTxtFile body = .error .emptyResult := by
      rw [parseTxtFile_eq, hnil]
      rfl
    rw [fetchFromURL_status_eq, if_neg (by decide), if_neg (by decide), hempty]
  · intro resp ds tg hok
    exact fetchFromURL_ok_ne_nil resp ds tg hok

theorem C6_empty_parse_is_failure_witness :
    (∀ raw ∈ scanLines "# only comments\n\n   \n", trimChars raw.toList = [] ∨
      (trimChars raw.toList).head? = some '#') ∧
    fetchFromURL (.status 200 "# only comments\n\n   \n" "") =
      .err (.parseFailed .emptyResult) := by
  refine ⟨by decide, ?_⟩
  exact (C6_empty_parse_is_failure "# only comments\n\n   \n" "" (by decide)).1







end Disposable
